import Mathlib

/-!
Verification development for `bdbsUtils` (`src/python/txt2file.py`).

The core of the repository is the class `bdbsCat` and the driver functions
`testStream` / `testConvertMany`.  We give a shallow embedding of the
streaming conversion pipeline:

* the file system touched by `processStream` is modelled as an association
  list from output-file index to the list of chunks written to that file
  (the header write is one chunk, and each buffered line written by
  `writelines` is one chunk).  `open(path, "w")` is `fsSet` (truncate /
  create), `open(path, "a")` is `fsAppend` (append / create).  Output file
  index `i` corresponds to the path `getIthOutfile i` computed by the
  source; distinct indices give distinct paths (3-digit zero padding of
  distinct decimal numerals), and in non-splitting mode the path variable
  is never reassigned, so a single index is reused.
* the external environment (`numpy.float` parsing and the two forms of
  `healpy.ang2pix` invocation) is abstracted into a structure `Ext` over an
  abstract angle type; `A2P` records, as ghost data, which `ang2pix`
  invocations a line's processing performs.  A concrete instantiation
  `extQ` over `ℚ` (with a faithful decimal parser for `np.float`) is used
  for concrete runs.
* the loop state of `processStream` is `LoopSt`; besides the fields that
  exist in the source (`iCount`, `iBunch`, the current output path,
  `bunch`, `self.idMax`, the written files) it carries two ghost traces:
  `ids`, the sequence of supplied counter identifiers assigned (mirroring
  the assignments to `suppID` in counter mode), and `outSeq`, the sequence
  of processed lines appended to the buffer, in order.

Input is supplied as the list of raw lines of the input file, each
retaining its trailing newline, exactly as Python's file iteration yields
them.
-/

set_option maxRecDepth 100000

namespace BdbsUtils

/-- The modelled file system: output-file index ↦ chunks written, in order.
Rendering a file's on-disk bytes is the concatenation of its chunks. -/
abbrev FS := List (Nat × List String)

/-- Content of file `i`, if it has been created. -/
def fsGet : FS → Nat → Option (List String)
  | [], _ => none
  | (j, d) :: rest, i => if j = i then some d else fsGet rest i

/-- `open(path, "w")` followed by writing `c`: truncate-create file `i`. -/
def fsSet : FS → Nat → List String → FS
  | [], i, c => [(i, c)]
  | (j, d) :: rest, i, c => if j = i then (i, c) :: rest else (j, d) :: fsSet rest i c

/-- `open(path, "a")` followed by `writelines c`: append to file `i`,
creating it when absent. -/
def fsAppend : FS → Nat → List String → FS
  | [], i, c => [(i, c)]
  | (j, d) :: rest, i, c => if j = i then (j, d ++ c) :: rest else (j, d) :: fsAppend rest i c

/-- Helper for `pysplit`: walk the characters, `acc` holding the current
token's characters in reverse; whitespace ends the current token (if any),
so empty tokens are never produced. -/
def pysplitAux : List Char → List Char → List String
  | [], acc => if acc = [] then [] else [String.mk acc.reverse]
  | c :: rest, acc =>
      if c.isWhitespace then
        if acc = [] then pysplitAux rest []
        else String.mk acc.reverse :: pysplitAux rest []
      else pysplitAux rest (c :: acc)

/-- Python's `str.split()` with no argument: split on runs of whitespace,
discarding empty tokens. -/
def pysplit (s : String) : List String :=
  pysplitAux s.toList []

/-- The external runtime environment of the script, over an abstract angle
type `A`: `numpy.float` string parsing (`none` models a raised
`ValueError`), `healpy.ang2pix(nside, ·, ·, lonlat=True)` (`none` models a
raised exception, triggering the source's fallback), the plain
`healpy.ang2pix(nside, ·, ·)`, `numpy.radians`, subtraction, and `π`. -/
structure Ext (A : Type) where
  npFloat : String → Option A
  ang2pixLonlat : Nat → A → A → Option Int
  ang2pixAng : Nat → A → A → Int
  radians : A → A
  sub : A → A → A
  pi : A

/-- Ghost record of one `healpy.ang2pix` invocation: the primary call with
`lonlat=True`, or the plain fallback call. -/
inductive A2P (A : Type) where
  | lonlat (nside : Nat) (ra de : A)
  | plain (nside : Nat) (theta phi : A)
deriving DecidableEq

/-- Is this invocation the fallback (plain, no `lonlat=True`) form? -/
def A2P.isFallback {A : Type} : A2P A → Bool
  | .lonlat _ _ _ => false
  | .plain _ _ _ => true

/-- The configuration and long-lived state of a `bdbsCat` instance, as set
by `__init__` and the attribute assignments in `testStream`.  `idMax0`
models the value of `self.idMax` on entry to `processStream` (set to `-1`
by the constructor). -/
structure Cfg where
  infil : String
  outDir : String
  outExt : String
  lineHeader : String
  useHealpix : Bool
  idMin : Int
  idMax0 : Int
  splitFiles : Bool
  nBunch : Nat
  nside : Nat
  colRA : Nat
  colDE : Nat

/-- `setHeaderLineCSV`: the hard-coded CSV header. -/
def lineHeaderCSV : String :=
  String.intercalate ","
    ["id", "ra", "dec", "raerr", "decerr", "radeccov",
     "u", "uerr", "uesq", "unobs", "uerrfl", "uskyflg", "ushpflg", "uovrflg",
     "g", "gerr", "gesq", "gnobs", "gerrfl", "gskyflg", "gshpflg", "govrflg",
     "r", "rerr", "resq", "rnobs", "rerrfl", "rskyflg", "rshpflg", "rovrflg",
     "i", "ierr", "iesq", "inobs", "ierrfl", "iskyflg", "ishpflg", "iovrflg",
     "z", "zerr", "zesq", "znobs", "zerrfl", "zskyflg", "zshpflg", "zovrflg",
     "y", "yerr", "yesq", "ynobs", "yerrfl", "yskyflg", "yshpflg", "yovrflg"]

/-- The `try: ang2pix(..., lonlat=True) except: ang2pix(radians(ra)-π,
radians(de))` block of `processInputLine` (source lines 267–271), with the
ghost list of `ang2pix` invocations performed. -/
def resolveHealpix {A : Type} (E : Ext A) (nside : Nat) (ra de : A) : Int × List (A2P A) :=
  match E.ang2pixLonlat nside ra de with
  | some i => (i, [A2P.lonlat nside ra de])
  | none =>
      (E.ang2pixAng nside (E.sub (E.radians ra) E.pi) (E.radians de),
       [A2P.lonlat nside ra de, A2P.plain nside (E.sub (E.radians ra) E.pi) (E.radians de)])

/-- `bdbsCat.processInputLine`.  Returns the output line together with the
ghost trace of `ang2pix` invocations; `none` models an uncaught exception
from `np.float` on a non-numeric token. -/
def processInputLine {A : Type} (cfg : Cfg) (E : Ext A) (lineIn : String) (IDsupp : Int) :
    Option (String × List (A2P A)) :=
  if lineIn.length < 1 then some (lineIn, [])
  else
    let lSplit := pysplit lineIn
    if lSplit.length < 2 then some (lineIn, [])
    else
      match E.npFloat (lSplit.getD cfg.colRA ""), E.npFloat (lSplit.getD cfg.colDE "") with
      | some thisRA, some thisDE =>
          let r := if cfg.useHealpix then resolveHealpix E cfg.nside thisRA thisDE
                   else (IDsupp, [])
          some (String.intercalate "," (toString r.1 :: lSplit) ++ "\n", r.2)
      | _, _ => none

/-- The supplied identifier for the line with 1-based index `n`:
`-1` in healpix mode, `self.idMin + iCount` in counter mode. -/
def suppIdAt (cfg : Cfg) (n : Nat) : Int :=
  if cfg.useHealpix then -1 else cfg.idMin + n

/-- Loop state of `processStream`: line counter, bunch counter, current
output-file index, buffered lines, `self.idMax`, the ghost traces of
issued counter identifiers and of processed lines, and the file system. -/
structure LoopSt where
  iCount : Nat
  iBunch : Nat
  curFile : Nat
  bunch : List String
  idMax : Int
  ids : List Int
  outSeq : List String
  fs : FS
deriving DecidableEq

/-- The per-line bookkeeping of `processStream`'s loop body before the
flush check: increment `iCount`, set `self.idMax` in counter mode, append
the processed line to the bunch (and to the ghost traces). -/
def advance (cfg : Cfg) (st : LoopSt) (suppID : Int) (x : String) : LoopSt :=
  ⟨st.iCount + 1, st.iBunch, st.curFile, st.bunch ++ [x],
   if cfg.useHealpix then st.idMax else suppID,
   if cfg.useHealpix then st.ids else st.ids ++ [suppID],
   st.outSeq ++ [x], st.fs⟩

/-- The `if len(bunch) == self.nBunch` block: append the bunch to the
current file, clear it, advance `iBunch`, and in splitting mode rotate to
the freshly numbered file, initialising it with the header line (written
unconditionally at rotation). -/
def flushStep (cfg : Cfg) (st : LoopSt) : LoopSt :=
  if st.bunch.length = cfg.nBunch then
    if cfg.splitFiles then
      ⟨st.iCount, st.iBunch + 1, st.iBunch + 1, [], st.idMax, st.ids, st.outSeq,
       fsSet (fsAppend st.fs st.curFile st.bunch) (st.iBunch + 1) [cfg.lineHeader ++ "\n"]⟩
    else
      ⟨st.iCount, st.iBunch + 1, st.curFile, [], st.idMax, st.ids, st.outSeq,
       fsAppend st.fs st.curFile st.bunch⟩
  else st

/-- One iteration of `processStream`'s `for line in rObj` body. -/
def streamStep {A : Type} (cfg : Cfg) (E : Ext A) (st : LoopSt) (line : String) : Option LoopSt :=
  match processInputLine cfg E line (suppIdAt cfg (st.iCount + 1)) with
  | none => none
  | some o => some (flushStep cfg (advance cfg st (suppIdAt cfg (st.iCount + 1)) o.1))

/-- The `for line in rObj` loop, including the early-stop check
`if iCount > iMax and iMax > 0: break` placed after the loop body. -/
def streamRun {A : Type} (cfg : Cfg) (E : Ext A) (iMax : Int) :
    List String → LoopSt → Option LoopSt
  | [], st => some st
  | line :: rest, st =>
      match streamStep cfg E st line with
      | none => none
      | some st2 =>
          if (st2.iCount : Int) > iMax ∧ 0 < iMax then some st2
          else streamRun cfg E iMax rest st2

/-- The final partial flush after the loop:
`if len(bunch) > 0: append bunch to pathOut`. -/
def streamFinish (st : LoopSt) : LoopSt :=
  ⟨st.iCount, st.iBunch, st.curFile, st.bunch, st.idMax, st.ids, st.outSeq,
   if st.bunch.length > 0 then fsAppend st.fs st.curFile st.bunch else st.fs⟩

/-- `bdbsCat.processStream`, on the given initial file system: write the
header to output file 0 if `len(self.lineHeader) > 1`, run the loop,
then flush the remaining partial bunch.  `none` models an uncaught
exception from `processInputLine`. -/
def processStream {A : Type} (cfg : Cfg) (E : Ext A) (fs0 : FS) (iMax : Int)
    (lines : List String) : Option LoopSt :=
  let fs1 := if 1 < cfg.lineHeader.length then fsSet fs0 0 [cfg.lineHeader ++ "\n"] else fs0
  (streamRun cfg E iMax lines ⟨0, 0, 0, [], cfg.idMax0, [], [], fs1⟩).map streamFinish

/-- Python `str(n).zfill(w)`: left-pad with zeros to width `w`. -/
def zfill (w : Nat) (s : String) : String :=
  if s.length < w then String.mk (List.replicate (w - s.length) '0') ++ s else s

/-- Index of the last occurrence of `c` in `l`, or `-1` when absent
(Python `str.rfind`). -/
def lastIdxOf (c : Char) (l : List Char) : Int :=
  match (l.enum.filter (fun q => q.2 = c)).getLast? with
  | some q => (q.1 : Int)
  | none => -1

/-- The stem part of `os.path.splitext`: split off the extension at the
last dot of the basename, unless every character of the basename before
that dot is itself a dot. -/
def splitextStem (p : String) : String :=
  let l := p.toList
  let sepIdx : Int := lastIdxOf '/' l
  let dotIdx : Int := lastIdxOf '.' l
  if (decide (dotIdx > sepIdx) &&
      l.enum.any (fun q => decide (sepIdx < (q.1 : Int) ∧ (q.1 : Int) < dotIdx ∧ q.2 ≠ '.'))) = true then
    String.mk (l.take dotIdx.toNat)
  else p

/-- `bdbsCat.getIthOutfile`: `"%s/%s_%s.%s" % (outDir, stem, zfill3, exten)`.
Note `exten` is the method's own argument (its Python default is `'csv'`);
the configured `self.outExt` is not consulted. -/
def getIthOutfile (cfg : Cfg) (iFiles : Nat) (exten : String) : String :=
  cfg.outDir ++ "/" ++ splitextStem cfg.infil ++ "_" ++ zfill 3 (toString iFiles) ++ "." ++ exten

/-- The output path `processStream` uses for file index `i`: it calls
`self.getIthOutfile(iBunch)`, so the Python default `exten='csv'` applies. -/
def streamOutPath (cfg : Cfg) (i : Nat) : String :=
  getIthOutfile cfg i "csv"

/-- Modelled from the spec: the output filename convention
`<outputDirectory>/<inputStem>_<3-digit-zero-padded-index>.<extension>`
"with the configured output extension", i.e. using `self.outExt`.  Stated
for comparison against `getIthOutfile` (claim C8). -/
def specOutPath (cfg : Cfg) (i : Nat) : String :=
  cfg.outDir ++ "/" ++ splitextStem cfg.infil ++ "_" ++ zfill 3 (toString i) ++ "." ++ cfg.outExt

/-- The `bdbsCat` instance built by `testStream`:
`bdbsCat(infil, 22, useHealpix=useHealpix, idMin=idMin)` followed by
`nBunch`, `splitFiles`, `Verbose` assignments and `setHeaderLineCSV()`. -/
def mkTestCfg (nBunch : Nat) (splitFiles useHealpix : Bool) (idMin : Int) : Cfg :=
  ⟨"TEST.catalog", "tiles", "csv", lineHeaderCSV, useHealpix, idMin, -1, splitFiles,
   nBunch, 2 ^ 22, 0, 1⟩

/-- `testStream`: build the instance and run `processStream(iMax=nMax)`.
The source function returns `BD.idMax`; the model returns the whole final
state, of which `idMax` is one field. -/
def testStream {A : Type} (E : Ext A) (lines : List String) (nMax : Int) (nBunch : Nat)
    (splitFiles useHealpix : Bool) (idMin : Int) : Option LoopSt :=
  processStream (mkTestCfg nBunch splitFiles useHealpix idMin) E [] nMax lines

/-- The conversion loop of `testConvertMany` (non-debug branch): for each
file, `idMax = testStream(-1, 1000000, True, True, thisFile, useHealpix,
idMin)` and then `idMin = idMax + 1`.  The model keeps each file's final
state. -/
def convertMany {A : Type} (E : Ext A) (useHealpix : Bool) :
    List (List String) → Int → Option (List LoopSt)
  | [], _ => some []
  | f :: fs, idMin =>
      match testStream E f (-1) 1000000 true useHealpix idMin with
      | none => none
      | some st => (convertMany E useHealpix fs (st.idMax + 1)).map (fun sts => st :: sts)

/-- The sequence of processed output lines for `lines`, when every line's
processing succeeds, with 1-based line indices counted from `n + 1`
(so `n` is the number of lines already read). -/
def outLinesFrom {A : Type} (cfg : Cfg) (E : Ext A) : Nat → List String → Option (List String)
  | _, [] => some []
  | n, l :: ls =>
      match processInputLine cfg E l (suppIdAt cfg (n + 1)) with
      | none => none
      | some o => (outLinesFrom cfg E (n + 1) ls).map (fun os => o.1 :: os)

/-- Whether `processInputLine` succeeds on `l` (no `np.float` exception);
this does not depend on the supplied identifier. -/
def lineOk {A : Type} (cfg : Cfg) (E : Ext A) (l : String) : Bool :=
  if l.length < 1 then true
  else if (pysplit l).length < 2 then true
  else (E.npFloat ((pysplit l).getD cfg.colRA "")).isSome &&
       (E.npFloat ((pysplit l).getD cfg.colDE "")).isSome

/-- Numeric value of a list of decimal digit characters. -/
def digitsVal (l : List Char) : Nat :=
  l.foldl (fun a c => a * 10 + (c.toNat - 48)) 0

/-- A model of `numpy.float` on catalog tokens: an optional sign, then
decimal digits with at most one decimal point (at least one digit
overall).  Sufficient for the whitespace-delimited numeric fields the
script consumes. -/
def parseDec (s : String) : Option ℚ :=
  let l := s.toList
  let body := if l.head? = some '-' ∨ l.head? = some '+' then l.tail else l
  let ip := body.takeWhile (fun c => c ≠ '.')
  let rest := body.dropWhile (fun c => c ≠ '.')
  let fp := rest.tail
  if ip.length + fp.length = 0 then none
  else if ip.all Char.isDigit && fp.all Char.isDigit then
    let mag : ℚ := (digitsVal ip : ℚ) + (digitsVal fp : ℚ) / ((10 : ℚ) ^ fp.length)
    some (if l.head? = some '-' then -mag else mag)
  else none

/-- A concrete external environment over `ℚ`: the decimal parser for
`np.float`, a primary `ang2pix` that always raises (exercising the
fallback), a trivial fallback, and rational approximations of `radians`
and `π`.  Counter-mode runs never consult the angular components. -/
def extQ : Ext ℚ :=
  ⟨parseDec, fun _ _ _ => none, fun _ _ _ => 0,
   fun x => x * (3141592653 / 1000000000) / 180, fun a b => a - b, 3141592653 / 1000000000⟩

end BdbsUtils

namespace BdbsUtils

/-! ### Basic lemmas about the modelled file system -/

theorem fsAppend_fsAppend (fs : FS) (i : Nat) (a b : List String) :
    fsAppend (fsAppend fs i a) i b = fsAppend fs i (a ++ b) := by
  induction fs with
  | nil => simp [fsAppend]
  | cons p rest ih =>
      obtain ⟨j, d⟩ := p
      by_cases h : j = i
      · subst h
        simp [fsAppend]
      · simp [fsAppend, h, ih]

theorem fsSet_not_mem (fs : FS) (i : Nat) (c : List String)
    (h : ∀ p ∈ fs, p.1 ≠ i) : fsSet fs i c = fs ++ [(i, c)] := by
  induction fs with
  | nil => simp [fsSet]
  | cons p rest ih =>
      obtain ⟨j, d⟩ := p
      have hj : j ≠ i := h (j, d) (by simp)
      simp only [fsSet, if_neg hj, List.cons_append, List.cons.injEq, true_and]
      exact ih (fun q hq => h q (by simp [hq]))

theorem fsAppend_append_singleton (done : FS) (k : Nat) (c ys : List String)
    (h : ∀ p ∈ done, p.1 ≠ k) :
    fsAppend (done ++ [(k, c)]) k ys = done ++ [(k, c ++ ys)] := by
  induction done with
  | nil => simp [fsAppend]
  | cons p rest ih =>
      obtain ⟨j, d⟩ := p
      have hj : j ≠ k := h (j, d) (by simp)
      simp only [List.cons_append, fsAppend, if_neg hj, List.cons.injEq, true_and]
      exact ih (fun q hq => h q (by simp [hq]))

theorem fsGet_fsAppend_self (fs : FS) (i : Nat) (ys : List String) :
    fsGet (fsAppend fs i ys) i = some (((fsGet fs i).getD []) ++ ys) := by
  induction fs with
  | nil => simp [fsAppend, fsGet]
  | cons p rest ih =>
      obtain ⟨j, d⟩ := p
      by_cases h : j = i
      · subst h
        simp [fsAppend, fsGet]
      · simp [fsAppend, fsGet, h, ih]

theorem fsAppend_nil_of_isSome (fs : FS) (i : Nat) (h : (fsGet fs i).isSome) :
    fsAppend fs i [] = fs := by
  induction fs with
  | nil => simp [fsGet] at h
  | cons p rest ih =>
      obtain ⟨j, d⟩ := p
      by_cases hj : j = i
      · subst hj
        simp [fsAppend]
      · simp only [fsGet, if_neg hj] at h
        simp [fsAppend, hj, ih h]

theorem fsGet_mem {fs : FS} {i : Nat} {c : List String}
    (h : fsGet fs i = some c) : (i, c) ∈ fs := by
  induction fs with
  | nil => simp [fsGet] at h
  | cons p rest ih =>
      obtain ⟨j, d⟩ := p
      by_cases hj : j = i
      · subst hj
        simp only [fsGet, if_pos] at h
        cases h
        simp
      · simp only [fsGet, if_neg hj] at h
        simp [ih h]

theorem fsGet_append (l1 l2 : FS) (i : Nat) :
    fsGet (l1 ++ l2) i = match fsGet l1 i with
      | some c => some c
      | none => fsGet l2 i := by
  induction l1 with
  | nil => simp [fsGet]
  | cons p rest ih =>
      obtain ⟨j, d⟩ := p
      by_cases hj : j = i
      · subst hj
        simp [fsGet]
      · simp [fsGet, hj, ih]

theorem fsGet_map_range (m k : Nat) (g : Nat → List String) :
    ∀ i, fsGet ((List.range m).map (fun j => (k + j, g j))) (k + i) =
      if i < m then some (g i) else none := by
  induction m with
  | zero => intro i; simp [fsGet]
  | succ m ih =>
      intro i
      rw [List.range_succ, List.map_append, fsGet_append, ih i]
      by_cases hi : i < m
      · rw [if_pos hi, if_pos (show i < m + 1 by omega)]
      · rw [if_neg hi]
        by_cases him : i = m
        · subst him
          rw [if_pos (Nat.lt_succ_self i)]
          simp [fsGet]
        · rw [if_neg (show ¬ i < m + 1 by omega)]
          have hne : k + m ≠ k + i := by omega
          simp [fsGet, hne]

end BdbsUtils

namespace BdbsUtils

/-! ### Projection lemmas for the loop-body steps -/

theorem flushStep_iCount (cfg : Cfg) (st : LoopSt) : (flushStep cfg st).iCount = st.iCount := by
  unfold flushStep
  split
  · split <;> rfl
  · rfl

theorem flushStep_idMax (cfg : Cfg) (st : LoopSt) : (flushStep cfg st).idMax = st.idMax := by
  unfold flushStep
  split
  · split <;> rfl
  · rfl

theorem flushStep_ids (cfg : Cfg) (st : LoopSt) : (flushStep cfg st).ids = st.ids := by
  unfold flushStep
  split
  · split <;> rfl
  · rfl

theorem flushStep_outSeq (cfg : Cfg) (st : LoopSt) : (flushStep cfg st).outSeq = st.outSeq := by
  unfold flushStep
  split
  · split <;> rfl
  · rfl

theorem streamFinish_iCount (st : LoopSt) : (streamFinish st).iCount = st.iCount := rfl

theorem streamFinish_idMax (st : LoopSt) : (streamFinish st).idMax = st.idMax := rfl

theorem streamFinish_ids (st : LoopSt) : (streamFinish st).ids = st.ids := rfl

theorem streamFinish_outSeq (st : LoopSt) : (streamFinish st).outSeq = st.outSeq := rfl

/-! ### `processInputLine` and `outLinesFrom` lemmas -/

theorem processInputLine_passthrough {A : Type} (cfg : Cfg) (E : Ext A) (l : String)
    (h : (pysplit l).length < 2) (i : Int) :
    processInputLine cfg E l i = some (l, []) := by
  unfold processInputLine
  by_cases h1 : l.length < 1
  · rw [if_pos h1]
  · rw [if_neg h1]
    simp only [if_pos h]

theorem lineOk_some {A : Type} {cfg : Cfg} {E : Ext A} {l : String}
    (h : lineOk cfg E l = true) (i : Int) :
    ∃ o, processInputLine cfg E l i = some o := by
  unfold lineOk at h
  unfold processInputLine
  by_cases h1 : l.length < 1
  · exact ⟨(l, []), by rw [if_pos h1]⟩
  · rw [if_neg h1] at h ⊢
    by_cases h2 : (pysplit l).length < 2
    · exact ⟨(l, []), by simp only [if_pos h2]⟩
    · simp only [if_neg h2] at h ⊢
      rw [Bool.and_eq_true, Option.isSome_iff_exists, Option.isSome_iff_exists] at h
      obtain ⟨⟨ra, hra⟩, ⟨de, hde⟩⟩ := h
      rw [hra, hde]
      exact ⟨_, rfl⟩

theorem processInputLine_isSome_indep {A : Type} (cfg : Cfg) (E : Ext A) (l : String)
    (i j : Int) : (processInputLine cfg E l i).isSome = (processInputLine cfg E l j).isSome := by
  unfold processInputLine
  by_cases h1 : l.length < 1
  · simp only [if_pos h1]
  · simp only [if_neg h1]
    by_cases h2 : (pysplit l).length < 2
    · simp only [if_pos h2]
    · simp only [if_neg h2]
      cases E.npFloat ((pysplit l).getD cfg.colRA "") <;>
        cases E.npFloat ((pysplit l).getD cfg.colDE "") <;> rfl

theorem outLinesFrom_ok {A : Type} (cfg : Cfg) (E : Ext A) :
    ∀ (lines : List String) (n : Nat), (∀ l ∈ lines, lineOk cfg E l = true) →
      ∃ os, outLinesFrom cfg E n lines = some os ∧ os.length = lines.length := by
  intro lines
  induction lines with
  | nil => intro n _; exact ⟨[], rfl, rfl⟩
  | cons l ls ih =>
      intro n hok
      obtain ⟨o, ho⟩ := lineOk_some (hok l (by simp)) (suppIdAt cfg (n + 1))
      obtain ⟨os, hos, hlen⟩ := ih (n + 1) (fun x hx => hok x (by simp [hx]))
      refine ⟨o.1 :: os, ?_, by simp [hlen]⟩
      unfold outLinesFrom
      rw [ho, hos]
      rfl

theorem outLinesFrom_get {A : Type} (cfg : Cfg) (E : Ext A) :
    ∀ (lines : List String) (n : Nat) (os : List String) (j : Nat) (l : String),
      outLinesFrom cfg E n lines = some os → lines[j]? = some l →
      os[j]? = (processInputLine cfg E l (suppIdAt cfg (n + j + 1))).map (fun o => o.1) := by
  intro lines
  induction lines with
  | nil => intro n os j l _ hj; simp at hj
  | cons x ls ih =>
      intro n os j l hos hj
      unfold outLinesFrom at hos
      cases hp : processInputLine cfg E x (suppIdAt cfg (n + 1)) with
      | none => rw [hp] at hos; exact absurd hos (by simp)
      | some o =>
          rw [hp] at hos
          obtain ⟨os', hos', rfl⟩ := Option.map_eq_some'.mp hos
          cases j with
          | zero =>
              simp only [List.getElem?_cons_zero, Option.some.injEq] at hj
              subst hj
              simp [hp]
          | succ j' =>
              simp only [List.getElem?_cons_succ] at hj
              have := ih (n + 1) os' j' l hos' hj
              simpa [show n + 1 + j' + 1 = n + (j' + 1) + 1 by omega] using this

end BdbsUtils

namespace BdbsUtils

/-! ### Unfolding lemmas for the stream loop -/

theorem streamRun_cons_eq {A : Type} (cfg : Cfg) (E : Ext A) (iMax : Int) {l : String}
    {st : LoopSt} {o : String × List (A2P A)}
    (hp : processInputLine cfg E l (suppIdAt cfg (st.iCount + 1)) = some o)
    (ls : List String) :
    streamRun cfg E iMax (l :: ls) st =
      if ((flushStep cfg (advance cfg st (suppIdAt cfg (st.iCount + 1)) o.1)).iCount : Int) > iMax
          ∧ 0 < iMax then
        some (flushStep cfg (advance cfg st (suppIdAt cfg (st.iCount + 1)) o.1))
      else streamRun cfg E iMax ls (flushStep cfg (advance cfg st (suppIdAt cfg (st.iCount + 1)) o.1)) := by
  conv_lhs => rw [streamRun]
  unfold streamStep
  rw [hp]

theorem advance_iCount (cfg : Cfg) (st : LoopSt) (s : Int) (x : String) :
    (advance cfg st s x).iCount = st.iCount + 1 := rfl

theorem step_iCount (cfg : Cfg) (st : LoopSt) (s : Int) (x : String) :
    (flushStep cfg (advance cfg st s x)).iCount = st.iCount + 1 := by
  rw [flushStep_iCount, advance_iCount]

theorem noBreak {iMax : Int} (hM : iMax ≤ 0) (n : Nat) : ¬((n : Int) > iMax ∧ 0 < iMax) :=
  fun h => absurd h.2 (by omega)

/-! ### Characterization of full (no-limit) runs: line and ghost-trace bookkeeping -/

theorem streamRun_noLimit_seq {A : Type} (cfg : Cfg) (E : Ext A) (iMax : Int) (hM : iMax ≤ 0) :
    ∀ (lines : List String) (st : LoopSt) (os : List String),
      outLinesFrom cfg E st.iCount lines = some os →
      ∃ st2, streamRun cfg E iMax lines st = some st2 ∧
        st2.iCount = st.iCount + lines.length ∧
        st2.outSeq = st.outSeq ++ os := by
  intro lines
  induction lines with
  | nil =>
      intro st os h
      simp only [outLinesFrom, Option.some.injEq] at h
      subst h
      exact ⟨st, rfl, by simp, by simp⟩
  | cons l ls ih =>
      intro st os h
      simp only [outLinesFrom] at h
      cases hp : processInputLine cfg E l (suppIdAt cfg (st.iCount + 1)) with
      | none => rw [hp] at h; simp at h
      | some o =>
          rw [hp] at h
          obtain ⟨os2, hos2, rfl⟩ := Option.map_eq_some'.mp h
          have hiC : (flushStep cfg (advance cfg st (suppIdAt cfg (st.iCount + 1)) o.1)).iCount
              = st.iCount + 1 := step_iCount cfg st _ _
          obtain ⟨st2, hrun, hc, hseq⟩ := ih _ os2 (by rw [hiC]; exact hos2)
          refine ⟨st2, ?_, ?_, ?_⟩
          · rw [streamRun_cons_eq cfg E iMax hp ls, if_neg (by rw [hiC]; exact noBreak hM _)]
            exact hrun
          · rw [hc, hiC]
            simp only [List.length_cons]
            omega
          · rw [hseq, flushStep_outSeq]
            show st.outSeq ++ [o.1] ++ os2 = _
            simp

/-- The sequence of counter identifiers issued for `n` lines when `start`
lines have already been read: `idMin + (start+1), ..., idMin + (start+n)`. -/
def counterIds (idMin : Int) (start n : Nat) : List Int :=
  (List.range n).map (fun (i : Nat) => idMin + (start : Int) + (i : Int) + 1)

theorem counterIds_succ (idMin : Int) (start n : Nat) :
    counterIds idMin start (n + 1) =
      (idMin + (start : Int) + 1) :: counterIds idMin (start + 1) n := by
  unfold counterIds
  rw [List.range_succ_eq_map, List.map_cons, List.map_map]
  congr 1
  · push_cast
    ring
  · have hfun : ((fun i : Nat => idMin + (start : Int) + (i : Int) + 1) ∘ Nat.succ) =
        (fun i : Nat => idMin + ((start + 1 : Nat) : Int) + (i : Int) + 1) := by
      funext i
      simp only [Function.comp_apply]
      push_cast
      ring
    rw [hfun]

theorem streamRun_counter {A : Type} (cfg : Cfg) (E : Ext A) (iMax : Int) (hM : iMax ≤ 0)
    (hu : cfg.useHealpix = false) :
    ∀ (lines : List String) (st : LoopSt) (os : List String),
      outLinesFrom cfg E st.iCount lines = some os →
      ∃ st2, streamRun cfg E iMax lines st = some st2 ∧
        st2.ids = st.ids ++ counterIds cfg.idMin st.iCount lines.length ∧
        st2.idMax = (if lines.length = 0 then st.idMax
                     else cfg.idMin + (st.iCount : Int) + (lines.length : Int)) := by
  intro lines
  induction lines with
  | nil =>
      intro st os h
      exact ⟨st, rfl, by simp [counterIds], by simp⟩
  | cons l ls ih =>
      intro st os h
      simp only [outLinesFrom] at h
      cases hp : processInputLine cfg E l (suppIdAt cfg (st.iCount + 1)) with
      | none => rw [hp] at h; simp at h
      | some o =>
          rw [hp] at h
          obtain ⟨os2, hos2, rfl⟩ := Option.map_eq_some'.mp h
          have hsupp : suppIdAt cfg (st.iCount + 1) = cfg.idMin + ((st.iCount : Int) + 1) := by
            simp [suppIdAt, hu]
          have hiC : (flushStep cfg (advance cfg st (suppIdAt cfg (st.iCount + 1)) o.1)).iCount
              = st.iCount + 1 := step_iCount cfg st _ _
          have hids : (flushStep cfg (advance cfg st (suppIdAt cfg (st.iCount + 1)) o.1)).ids
              = st.ids ++ [cfg.idMin + ((st.iCount : Int) + 1)] := by
            rw [flushStep_ids]
            show (if cfg.useHealpix then st.ids else st.ids ++ [suppIdAt cfg (st.iCount + 1)]) = _
            rw [hu, if_neg (by simp), hsupp]
          have hidm : (flushStep cfg (advance cfg st (suppIdAt cfg (st.iCount + 1)) o.1)).idMax
              = cfg.idMin + ((st.iCount : Int) + 1) := by
            rw [flushStep_idMax]
            show (if cfg.useHealpix then st.idMax else suppIdAt cfg (st.iCount + 1)) = _
            rw [hu, if_neg (by simp), hsupp]
          obtain ⟨st2, hrun, hid2, hmax2⟩ := ih _ os2 (by rw [hiC]; exact hos2)
          refine ⟨st2, ?_, ?_, ?_⟩
          · rw [streamRun_cons_eq cfg E iMax hp ls, if_neg (by rw [hiC]; exact noBreak hM _)]
            exact hrun
          · rw [hid2, hids, hiC, List.length_cons, counterIds_succ, List.append_assoc,
              List.singleton_append]
            congr 2
            ring
          · rw [hmax2, List.length_cons]
            by_cases hn : ls.length = 0
            · rw [if_pos hn, hidm, if_neg (by omega), hn]
              push_cast
              ring
            · rw [if_neg hn, hiC, if_neg (by omega)]
              push_cast
              ring


/-! ### Characterization of the file system written by a full run -/

theorem splitChunkShift (hdr : String) (B : Nat) (hB : 0 < B) (done : FS) (k : Nat)
    (b rest : List String) (hb : b.length = B) :
    done ++ (List.range ((b ++ rest).length / B + 1)).map
        (fun (j : Nat) => (k + j, hdr :: (((b ++ rest).drop (j * B)).take B)))
      = (done ++ [(k, hdr :: b)]) ++ (List.range (rest.length / B + 1)).map
        (fun (j : Nat) => (k + 1 + j, hdr :: ((rest.drop (j * B)).take B))) := by
  have hlen : (b ++ rest).length = rest.length + B := by
    rw [List.length_append, hb]
    omega
  rw [hlen, Nat.add_div_right _ hB, List.range_succ_eq_map, List.map_cons, List.map_map]
  have h0 : ((b ++ rest).drop (0 * B)).take B = b := by
    rw [Nat.zero_mul, List.drop_zero, List.take_left' hb]
  have hfun : ((fun (j : Nat) => (k + j, hdr :: (((b ++ rest).drop (j * B)).take B))) ∘ Nat.succ)
      = (fun (j : Nat) => (k + 1 + j, hdr :: ((rest.drop (j * B)).take B))) := by
    funext j
    simp only [Function.comp_apply, Prod.mk.injEq]
    constructor
    · omega
    · rw [Nat.succ_mul, Nat.add_comm (j * B) B, ← List.drop_drop (j * B) B,
        List.drop_left' hb]
  rw [h0, hfun, Nat.add_zero, List.append_cons]

theorem streamRun_split {A : Type} (cfg : Cfg) (E : Ext A) (iMax : Int) (hM : iMax ≤ 0)
    (hsp : cfg.splitFiles = true) (hB : 0 < cfg.nBunch) :
    ∀ (lines : List String) (st : LoopSt) (os : List String) (done : FS),
      outLinesFrom cfg E st.iCount lines = some os →
      st.curFile = st.iBunch →
      st.bunch.length < cfg.nBunch →
      st.fs = done ++ [(st.iBunch, [cfg.lineHeader ++ "\n"])] →
      (∀ p ∈ done, p.1 < st.iBunch) →
      ∃ st2, streamRun cfg E iMax lines st = some st2 ∧
        (streamFinish st2).fs = done ++
          (List.range ((st.bunch ++ os).length / cfg.nBunch + 1)).map
            (fun (j : Nat) => (st.iBunch + j,
              (cfg.lineHeader ++ "\n") :: (((st.bunch ++ os).drop (j * cfg.nBunch)).take cfg.nBunch))) := by
  intro lines
  induction lines with
  | nil =>
      intro st os done h hcur hlt hfs hkeys
      simp only [outLinesFrom, Option.some.injEq] at h
      subst h
      refine ⟨st, rfl, ?_⟩
      have hdiv : (st.bunch ++ ([] : List String)).length / cfg.nBunch = 0 := by
        rw [List.append_nil]
        exact Nat.div_eq_of_lt hlt
      rw [hdiv, show List.range (0 + 1) = [0] from rfl]
      simp only [List.map_cons, List.map_nil, Nat.add_zero, Nat.zero_mul,
        List.append_nil, List.drop_zero]
      rw [List.take_of_length_le (Nat.le_of_lt hlt)]
      unfold streamFinish
      by_cases hb0 : st.bunch.length > 0
      · simp only [if_pos hb0]
        rw [hfs, hcur]
        rw [fsAppend_append_singleton done st.iBunch _ _
          (fun p hp => Nat.ne_of_lt (hkeys p hp))]
        rfl
      · simp only [if_neg hb0]
        rw [hfs]
        have : st.bunch = [] := List.length_eq_zero.mp (by omega)
        rw [this]
  | cons l ls ih =>
      intro st os done h hcur hlt hfs hkeys
      simp only [outLinesFrom] at h
      cases hp : processInputLine cfg E l (suppIdAt cfg (st.iCount + 1)) with
      | none => rw [hp] at h; simp at h
      | some o =>
          rw [hp] at h
          obtain ⟨os2, hos2, rfl⟩ := Option.map_eq_some'.mp h
          have hiC : (flushStep cfg (advance cfg st (suppIdAt cfg (st.iCount + 1)) o.1)).iCount
              = st.iCount + 1 := step_iCount cfg st _ _
          by_cases hfull : (st.bunch ++ [o.1]).length = cfg.nBunch
          · -- the bunch fills: flush to the current file and rotate
            have hstep : flushStep cfg (advance cfg st (suppIdAt cfg (st.iCount + 1)) o.1) =
                ⟨st.iCount + 1, st.iBunch + 1, st.iBunch + 1, [],
                 (advance cfg st (suppIdAt cfg (st.iCount + 1)) o.1).idMax,
                 (advance cfg st (suppIdAt cfg (st.iCount + 1)) o.1).ids,
                 (advance cfg st (suppIdAt cfg (st.iCount + 1)) o.1).outSeq,
                 fsSet (fsAppend st.fs st.curFile (st.bunch ++ [o.1])) (st.iBunch + 1)
                   [cfg.lineHeader ++ "\n"]⟩ := by
              unfold flushStep
              rw [if_pos (show (advance cfg st (suppIdAt cfg (st.iCount + 1)) o.1).bunch.length
                  = cfg.nBunch from hfull), if_pos hsp]
              rfl
            have hfs1 : fsAppend st.fs st.curFile (st.bunch ++ [o.1]) =
                done ++ [(st.iBunch, (cfg.lineHeader ++ "\n") :: (st.bunch ++ [o.1]))] := by
              rw [hfs, hcur]
              rw [fsAppend_append_singleton done st.iBunch _ _
                (fun p hp => Nat.ne_of_lt (hkeys p hp))]
              rfl
            have hfs2 : fsSet (fsAppend st.fs st.curFile (st.bunch ++ [o.1])) (st.iBunch + 1)
                [cfg.lineHeader ++ "\n"] =
                (done ++ [(st.iBunch, (cfg.lineHeader ++ "\n") :: (st.bunch ++ [o.1]))])
                  ++ [(st.iBunch + 1, [cfg.lineHeader ++ "\n"])] := by
              rw [hfs1]
              apply fsSet_not_mem
              intro p hp
              rcases List.mem_append.mp hp with hpd | hps
              · exact Nat.ne_of_lt (Nat.lt_succ_of_lt (hkeys p hpd))
              · rw [List.mem_singleton] at hps
                subst hps
                show st.iBunch ≠ st.iBunch + 1
                omega
            obtain ⟨st2, hrun, hchar⟩ := ih
              (flushStep cfg (advance cfg st (suppIdAt cfg (st.iCount + 1)) o.1)) os2
              (done ++ [(st.iBunch, (cfg.lineHeader ++ "\n") :: (st.bunch ++ [o.1]))])
              (by rw [hiC]; exact hos2)
              (by rw [hstep])
              (by rw [hstep]; simpa using hB)
              (by rw [hstep]; exact hfs2)
              (by
                rw [hstep]
                intro p hp
                rcases List.mem_append.mp hp with hpd | hps
                · exact Nat.lt_succ_of_lt (hkeys p hpd)
                · rw [List.mem_singleton] at hps
                  subst hps
                  exact Nat.lt_succ_self st.iBunch)
            refine ⟨st2, ?_, ?_⟩
            · rw [streamRun_cons_eq cfg E iMax hp ls, if_neg (by rw [hiC]; exact noBreak hM _)]
              exact hrun
            · rw [hchar, hstep]
              show _ = done ++ (List.range ((st.bunch ++ (o.1 :: os2)).length / cfg.nBunch + 1)).map _
              have hassoc : st.bunch ++ (o.1 :: os2) = (st.bunch ++ [o.1]) ++ os2 := by
                simp
              rw [hassoc,
                splitChunkShift (cfg.lineHeader ++ "\n") cfg.nBunch hB done st.iBunch
                  (st.bunch ++ [o.1]) os2 hfull]
              exact rfl
          · -- the bunch is not yet full: no flush
            have hstep : flushStep cfg (advance cfg st (suppIdAt cfg (st.iCount + 1)) o.1) =
                advance cfg st (suppIdAt cfg (st.iCount + 1)) o.1 := by
              unfold flushStep
              rw [if_neg (show ¬ (advance cfg st (suppIdAt cfg (st.iCount + 1)) o.1).bunch.length
                  = cfg.nBunch from hfull)]
            have hlt2 : (st.bunch ++ [o.1]).length < cfg.nBunch := by
              have : (st.bunch ++ [o.1]).length = st.bunch.length + 1 := by simp
              omega
            obtain ⟨st2, hrun, hchar⟩ := ih
              (flushStep cfg (advance cfg st (suppIdAt cfg (st.iCount + 1)) o.1)) os2 done
              (by rw [hiC]; exact hos2)
              (by rw [hstep]; exact hcur)
              (by rw [hstep]; exact hlt2)
              (by rw [hstep]; exact hfs)
              (by rw [hstep]; exact hkeys)
            refine ⟨st2, ?_, ?_⟩
            · rw [streamRun_cons_eq cfg E iMax hp ls, if_neg (by rw [hiC]; exact noBreak hM _)]
              exact hrun
            · rw [hchar, hstep]
              show _ = done ++ (List.range ((st.bunch ++ (o.1 :: os2)).length / cfg.nBunch + 1)).map _
              have hassoc : st.bunch ++ (o.1 :: os2) = (st.bunch ++ [o.1]) ++ os2 := by
                simp
              rw [hassoc]
              rfl


theorem streamRun_nosplit {A : Type} (cfg : Cfg) (E : Ext A) (iMax : Int) (hM : iMax ≤ 0)
    (hsp : cfg.splitFiles = false) :
    ∀ (lines : List String) (st : LoopSt) (os : List String),
      outLinesFrom cfg E st.iCount lines = some os →
      (fsGet st.fs st.curFile).isSome = true →
      ∃ st2, streamRun cfg E iMax lines st = some st2 ∧
        (streamFinish st2).fs = fsAppend st.fs st.curFile (st.bunch ++ os) := by
  intro lines
  induction lines with
  | nil =>
      intro st os h hmem
      simp only [outLinesFrom, Option.some.injEq] at h
      subst h
      refine ⟨st, rfl, ?_⟩
      unfold streamFinish
      rw [List.append_nil]
      by_cases hb0 : st.bunch.length > 0
      · simp only [if_pos hb0]
      · simp only [if_neg hb0]
        have hb : st.bunch = [] := List.length_eq_zero.mp (by omega)
        rw [hb, fsAppend_nil_of_isSome st.fs st.curFile hmem]
  | cons l ls ih =>
      intro st os h hmem
      simp only [outLinesFrom] at h
      cases hp : processInputLine cfg E l (suppIdAt cfg (st.iCount + 1)) with
      | none => rw [hp] at h; simp at h
      | some o =>
          rw [hp] at h
          obtain ⟨os2, hos2, rfl⟩ := Option.map_eq_some'.mp h
          have hiC : (flushStep cfg (advance cfg st (suppIdAt cfg (st.iCount + 1)) o.1)).iCount
              = st.iCount + 1 := step_iCount cfg st _ _
          by_cases hfull : (st.bunch ++ [o.1]).length = cfg.nBunch
          · have hstep : flushStep cfg (advance cfg st (suppIdAt cfg (st.iCount + 1)) o.1) =
                ⟨st.iCount + 1, st.iBunch + 1, st.curFile,  [],
                 (advance cfg st (suppIdAt cfg (st.iCount + 1)) o.1).idMax,
                 (advance cfg st (suppIdAt cfg (st.iCount + 1)) o.1).ids,
                 (advance cfg st (suppIdAt cfg (st.iCount + 1)) o.1).outSeq,
                 fsAppend st.fs st.curFile (st.bunch ++ [o.1])⟩ := by
              unfold flushStep
              rw [if_pos (show (advance cfg st (suppIdAt cfg (st.iCount + 1)) o.1).bunch.length
                  = cfg.nBunch from hfull), if_neg (by rw [hsp]; simp)]
              rfl
            have hmem2 : (fsGet (fsAppend st.fs st.curFile (st.bunch ++ [o.1])) st.curFile).isSome
                = true := by
              rw [fsGet_fsAppend_self]
              rfl
            obtain ⟨st2, hrun, hchar⟩ := ih
              (flushStep cfg (advance cfg st (suppIdAt cfg (st.iCount + 1)) o.1)) os2
              (by rw [hiC]; exact hos2)
              (by rw [hstep]; exact hmem2)
            refine ⟨st2, ?_, ?_⟩
            · rw [streamRun_cons_eq cfg E iMax hp ls, if_neg (by rw [hiC]; exact noBreak hM _)]
              exact hrun
            · rw [hchar, hstep]
              show fsAppend (fsAppend st.fs st.curFile (st.bunch ++ [o.1])) st.curFile
                  ([] ++ os2) = _
              rw [List.nil_append, fsAppend_fsAppend, List.append_assoc, List.singleton_append]
          · have hstep : flushStep cfg (advance cfg st (suppIdAt cfg (st.iCount + 1)) o.1) =
                advance cfg st (suppIdAt cfg (st.iCount + 1)) o.1 := by
              unfold flushStep
              rw [if_neg (show ¬ (advance cfg st (suppIdAt cfg (st.iCount + 1)) o.1).bunch.length
                  = cfg.nBunch from hfull)]
            obtain ⟨st2, hrun, hchar⟩ := ih
              (flushStep cfg (advance cfg st (suppIdAt cfg (st.iCount + 1)) o.1)) os2
              (by rw [hiC]; exact hos2)
              (by rw [hstep]; exact hmem)
            refine ⟨st2, ?_, ?_⟩
            · rw [streamRun_cons_eq cfg E iMax hp ls, if_neg (by rw [hiC]; exact noBreak hM _)]
              exact hrun
            · rw [hchar, hstep]
              show fsAppend st.fs st.curFile ((st.bunch ++ [o.1]) ++ os2) = _
              rw [List.append_assoc, List.singleton_append]

/-! ### The early-stop limit -/

theorem streamRun_limit {A : Type} (cfg : Cfg) (E : Ext A) (iMax : Int) (hM : 0 < iMax) :
    ∀ (lines : List String) (st : LoopSt),
      (∀ l ∈ lines, lineOk cfg E l = true) →
      st.iCount ≤ iMax.toNat →
      st.outSeq.length = st.iCount →
      ∃ st2, streamRun cfg E iMax lines st = some st2 ∧
        st2.iCount = min (st.iCount + lines.length) (iMax.toNat + 1) ∧
        st2.outSeq.length = st2.iCount := by
  intro lines
  induction lines with
  | nil =>
      intro st _ hle hlen
      refine ⟨st, rfl, ?_, hlen⟩
      simp only [List.length_nil, Nat.add_zero]
      omega
  | cons l ls ih =>
      intro st hok hle hlen
      obtain ⟨o, hp⟩ := lineOk_some (hok l (by simp)) (suppIdAt cfg (st.iCount + 1))
      have hiC : (flushStep cfg (advance cfg st (suppIdAt cfg (st.iCount + 1)) o.1)).iCount
          = st.iCount + 1 := step_iCount cfg st _ _
      have hseq : (flushStep cfg (advance cfg st (suppIdAt cfg (st.iCount + 1)) o.1)).outSeq
          = st.outSeq ++ [o.1] := by
        rw [flushStep_outSeq]
        rfl
      rw [streamRun_cons_eq cfg E iMax hp ls]
      by_cases hbr : ((st.iCount + 1 : Nat) : Int) > iMax
      · rw [if_pos (by rw [hiC]; exact ⟨hbr, hM⟩)]
        refine ⟨_, rfl, ?_, ?_⟩
        · rw [hiC, List.length_cons]
          omega
        · rw [hseq, hiC, List.length_append]
          simp [hlen]
      · rw [if_neg (by rw [hiC]; exact fun hq => hbr hq.1)]
        obtain ⟨st2, hrun, hc, hl⟩ := ih _ (fun x hx => hok x (by simp [hx]))
          (by rw [hiC]; omega) (by rw [hseq, hiC, List.length_append]; simp [hlen])
        refine ⟨st2, hrun, ?_, hl⟩
        rw [hc, hiC, List.length_cons]
        omega

/-- A successful no-limit run implies that every line's processing
succeeded, i.e. `outLinesFrom` is defined. -/
theorem streamRun_some_outLines {A : Type} (cfg : Cfg) (E : Ext A) (iMax : Int) (hM : iMax ≤ 0) :
    ∀ (lines : List String) (st st2 : LoopSt),
      streamRun cfg E iMax lines st = some st2 →
      ∃ os, outLinesFrom cfg E st.iCount lines = some os := by
  intro lines
  induction lines with
  | nil => intro st st2 _; exact ⟨[], rfl⟩
  | cons l ls ih =>
      intro st st2 hrun
      rw [streamRun] at hrun
      cases hp : streamStep cfg E st l with
      | none => rw [hp] at hrun; simp at hrun
      | some st1 =>
          rw [hp] at hrun
          unfold streamStep at hp
          cases hq : processInputLine cfg E l (suppIdAt cfg (st.iCount + 1)) with
          | none => rw [hq] at hp; simp at hp
          | some o =>
              rw [hq] at hp
              simp only [Option.some.injEq] at hp
              have hiC : st1.iCount = st.iCount + 1 := by
                rw [← hp]
                exact step_iCount cfg st _ _
              change (if (st1.iCount : Int) > iMax ∧ 0 < iMax then some st1
                  else streamRun cfg E iMax ls st1) = some st2 at hrun
              rw [if_neg (show ¬((st1.iCount : Int) > iMax ∧ 0 < iMax) from by
                rw [hiC]; exact noBreak hM _)] at hrun
              obtain ⟨os2, hos2⟩ := ih st1 st2 hrun
              rw [hiC] at hos2
              refine ⟨o.1 :: os2, ?_⟩
              simp only [outLinesFrom]
              rw [hq, hos2]
              rfl


/-! ### `processStream`-level characterizations -/

theorem fsGet_map_range0 (m : Nat) (g : Nat → List String) (i : Nat) :
    fsGet ((List.range m).map (fun j => (j, g j))) i = if i < m then some (g i) else none := by
  have h := fsGet_map_range m 0 g i
  simpa using h

theorem processStream_split_run {A : Type} (cfg : Cfg) (E : Ext A) (lines os : List String)
    (fs0 : FS) (hh : 1 < cfg.lineHeader.length) (hsp : cfg.splitFiles = true)
    (hB : 0 < cfg.nBunch) (hos : outLinesFrom cfg E 0 lines = some os)
    (hfs0 : fsSet fs0 0 [cfg.lineHeader ++ "\n"] = [(0, [cfg.lineHeader ++ "\n"])]) :
    ∃ st, processStream cfg E fs0 (-1) lines = some st ∧
      st.fs = (List.range (os.length / cfg.nBunch + 1)).map
        (fun (j : Nat) => (j,
          (cfg.lineHeader ++ "\n") :: ((os.drop (j * cfg.nBunch)).take cfg.nBunch))) := by
  obtain ⟨st2, hrun, hchar⟩ := streamRun_split cfg E (-1) (by omega) hsp hB lines
    ⟨0, 0, 0, [], cfg.idMax0, [], [], fsSet fs0 0 [cfg.lineHeader ++ "\n"]⟩ os []
    hos rfl hB (by rw [hfs0]; rfl) (by simp)
  refine ⟨streamFinish st2, ?_, ?_⟩
  · unfold processStream
    rw [if_pos hh]
    show (streamRun cfg E (-1) lines
        ⟨0, 0, 0, [], cfg.idMax0, [], [], fsSet fs0 0 [cfg.lineHeader ++ "\n"]⟩).map streamFinish
      = some (streamFinish st2)
    rw [hrun]
    rfl
  · rw [hchar]
    show List.map _ _ = _
    congr 1
    funext j
    simp

theorem processStream_nosplit_run {A : Type} (cfg : Cfg) (E : Ext A) (lines os : List String)
    (fs0 : FS) (hh : 1 < cfg.lineHeader.length) (hsp : cfg.splitFiles = false)
    (hos : outLinesFrom cfg E 0 lines = some os)
    (hfs0 : fsSet fs0 0 [cfg.lineHeader ++ "\n"] = [(0, [cfg.lineHeader ++ "\n"])]) :
    ∃ st, processStream cfg E fs0 (-1) lines = some st ∧
      st.fs = [(0, (cfg.lineHeader ++ "\n") :: os)] := by
  obtain ⟨st2, hrun, hchar⟩ := streamRun_nosplit cfg E (-1) (by omega) hsp lines
    ⟨0, 0, 0, [], cfg.idMax0, [], [], fsSet fs0 0 [cfg.lineHeader ++ "\n"]⟩ os
    hos (by rw [hfs0]; rfl)
  refine ⟨streamFinish st2, ?_, ?_⟩
  · unfold processStream
    rw [if_pos hh]
    show (streamRun cfg E (-1) lines
        ⟨0, 0, 0, [], cfg.idMax0, [], [], fsSet fs0 0 [cfg.lineHeader ++ "\n"]⟩).map streamFinish
      = some (streamFinish st2)
    rw [hrun]
    rfl
  · rw [hchar]
    show fsAppend (fsSet fs0 0 [cfg.lineHeader ++ "\n"]) 0 ([] ++ os) = _
    rw [hfs0, List.nil_append]
    simp [fsAppend]

theorem testStream_some_char {A : Type} (E : Ext A) (lines : List String) (nBunch : Nat)
    (split : Bool) (idMin : Int) (st : LoopSt)
    (h : testStream E lines (-1) nBunch split false idMin = some st) :
    st.ids = counterIds idMin 0 lines.length ∧
    st.idMax = (if lines.length = 0 then -1 else idMin + (lines.length : Int)) := by
  unfold testStream processStream at h
  obtain ⟨st2, hrun, rfl⟩ := Option.map_eq_some'.mp h
  obtain ⟨os, hos⟩ := streamRun_some_outLines _ E (-1) (by omega) lines _ st2 hrun
  obtain ⟨st3, hrun3, hids, hmax⟩ := streamRun_counter _ E (-1) (by omega) rfl lines _ os hos
  rw [hrun3] at hrun
  cases hrun
  constructor
  · rw [streamFinish_ids, hids]
    rfl
  · rw [streamFinish_idMax, hmax]
    by_cases hn : lines.length = 0
    · rw [if_pos hn, if_pos hn]
      rfl
    · rw [if_neg hn, if_neg hn]
      show idMin + ((0 : Nat) : Int) + _ = _
      push_cast
      ring


/-! ### Claim theorems -/

/-- C5 (confirmed): for every input and `limit > 0`, `processStream` halts
early once more than `limit` lines have been read, so that exactly
`limit + 1` lines are processed — transformed and appended to the output
buffer — when at least that many lines exist (`min` captures the general
case); with `limit ≤ 0` all lines are processed.  The number of processed
lines is `iCount`, and `outSeq` (the lines appended to the buffer) has
exactly that length. -/
theorem claim5_early_stop {A : Type} (E : Ext A) (cfg : Cfg) (lines : List String) (limit : Int)
    (hok : ∀ l ∈ lines, lineOk cfg E l = true) :
    ∃ st, processStream cfg E [] limit lines = some st ∧
      st.iCount = (if 0 < limit then min lines.length (limit.toNat + 1) else lines.length) ∧
      st.outSeq.length = st.iCount := by
  by_cases hl : 0 < limit
  · obtain ⟨st2, hrun, hc, hlen⟩ := streamRun_limit cfg E limit hl lines
      ⟨0, 0, 0, [], cfg.idMax0, [], [],
        if 1 < cfg.lineHeader.length then fsSet [] 0 [cfg.lineHeader ++ "\n"] else []⟩
      hok (Nat.zero_le _) rfl
    refine ⟨streamFinish st2, ?_, ?_, ?_⟩
    · show (streamRun cfg E limit lines
          ⟨0, 0, 0, [], cfg.idMax0, [], [],
            if 1 < cfg.lineHeader.length then fsSet [] 0 [cfg.lineHeader ++ "\n"] else []⟩).map
          streamFinish = some (streamFinish st2)
      rw [hrun]
      rfl
    · rw [streamFinish_iCount, hc, if_pos hl, Nat.zero_add]
    · rw [streamFinish_outSeq, streamFinish_iCount, hlen]
  · have hle : limit ≤ 0 := by omega
    obtain ⟨os, hos, hoslen⟩ := outLinesFrom_ok cfg E lines 0 hok
    obtain ⟨st2, hrun, hc, hseq⟩ := streamRun_noLimit_seq cfg E limit hle lines
      ⟨0, 0, 0, [], cfg.idMax0, [], [],
        if 1 < cfg.lineHeader.length then fsSet [] 0 [cfg.lineHeader ++ "\n"] else []⟩ os hos
    refine ⟨streamFinish st2, ?_, ?_, ?_⟩
    · show (streamRun cfg E limit lines
          ⟨0, 0, 0, [], cfg.idMax0, [], [],
            if 1 < cfg.lineHeader.length then fsSet [] 0 [cfg.lineHeader ++ "\n"] else []⟩).map
          streamFinish = some (streamFinish st2)
      rw [hrun]
      rfl
    · rw [streamFinish_iCount, hc, if_neg hl, Nat.zero_add]
    · rw [streamFinish_outSeq, streamFinish_iCount, hseq, hc]
      show ([] ++ os).length = 0 + lines.length
      rw [List.nil_append, hoslen, Nat.zero_add]

/-- Witness for C5: `limit = 1` on a 5-line input processes exactly 2
lines. -/
theorem claim5_early_stop_witness :
    (∀ l ∈ ["1 2\n", "3 4\n", "5 6\n", "7 8\n", "9 0\n"],
        lineOk (mkTestCfg 1000000 false false 0) extQ l = true) ∧
    ∃ st, processStream (mkTestCfg 1000000 false false 0) extQ []
        1 ["1 2\n", "3 4\n", "5 6\n", "7 8\n", "9 0\n"] = some st ∧
      st.iCount = (if (0 : Int) < 1 then
          min (["1 2\n", "3 4\n", "5 6\n", "7 8\n", "9 0\n"] : List String).length
            ((1 : Int).toNat + 1)
        else (["1 2\n", "3 4\n", "5 6\n", "7 8\n", "9 0\n"] : List String).length) ∧
      st.outSeq.length = st.iCount :=
  ⟨by decide, claim5_early_stop extQ (mkTestCfg 1000000 false false 0)
    ["1 2\n", "3 4\n", "5 6\n", "7 8\n", "9 0\n"] 1 (by decide)⟩

/-- C6 (confirmed): a raw line that is empty after trimming, or that
whitespace-tokenizes into fewer than two tokens, is returned byte-identical
by `processInputLine` (for every supplied identifier), and appears
verbatim at its original position `j` in the output sequence.  Both the
empty-after-trimming case and the one-token case satisfy
`(pysplit l).length < 2` (a whitespace-only line tokenizes to `[]`). -/
theorem claim6_passthrough {A : Type} (E : Ext A) (cfg : Cfg) (lines : List String) (j : Nat)
    (l : String) (hok : ∀ x ∈ lines, lineOk cfg E x = true)
    (hj : lines[j]? = some l) (hshort : (pysplit l).length < 2) :
    (∀ i : Int, processInputLine cfg E l i = some (l, [])) ∧
    ∃ st, processStream cfg E [] (-1) lines = some st ∧ st.outSeq[j]? = some l := by
  refine ⟨fun i => processInputLine_passthrough cfg E l hshort i, ?_⟩
  obtain ⟨os, hos, _⟩ := outLinesFrom_ok cfg E lines 0 hok
  obtain ⟨st2, hrun, _, hseq⟩ := streamRun_noLimit_seq cfg E (-1) (by omega) lines
    ⟨0, 0, 0, [], cfg.idMax0, [], [],
      if 1 < cfg.lineHeader.length then fsSet [] 0 [cfg.lineHeader ++ "\n"] else []⟩ os hos
  refine ⟨streamFinish st2, ?_, ?_⟩
  · show (streamRun cfg E (-1) lines
        ⟨0, 0, 0, [], cfg.idMax0, [], [],
          if 1 < cfg.lineHeader.length then fsSet [] 0 [cfg.lineHeader ++ "\n"] else []⟩).map
        streamFinish = some (streamFinish st2)
    rw [hrun]
    rfl
  · rw [streamFinish_outSeq, hseq]
    show os[j]? = some l
    rw [outLinesFrom_get cfg E lines 0 os j l hos hj,
      processInputLine_passthrough cfg E l hshort _]
    rfl

/-- Witness for C6: the whitespace-only line `"\n"` at position 1 of a
3-line input passes through unchanged. -/
theorem claim6_passthrough_witness :
    ((pysplit "\n").length < 2) ∧
    (∀ i : Int, processInputLine (mkTestCfg 1000000 false false 0) extQ "\n" i
        = some ("\n", [])) ∧
    ∃ st, processStream (mkTestCfg 1000000 false false 0) extQ [] (-1)
        ["1.0 2.0\n", "\n", "3.0 4.0\n"] = some st ∧ st.outSeq[1]? = some "\n" :=
  ⟨by decide,
   claim6_passthrough extQ (mkTestCfg 1000000 false false 0)
     ["1.0 2.0\n", "\n", "3.0 4.0\n"] 1 "\n" (by decide) rfl (by decide)⟩

/-- C9 (confirmed): in spatial mode the identifier computation performs the
primary `ang2pix(..., lonlat=True)` call, and — exactly when that call
fails — a single fallback recomputation with the inputs treated as radians,
a π-offset applied to the longitude and no offset applied to the latitude;
there are no retries beyond this single fallback attempt (the number of
fallback invocations is 0 on primary success and 1 on primary failure, and
the whole trace never exceeds the two calls). -/
theorem claim9_single_fallback {A : Type} (E : Ext A) (nside : Nat) (ra de : A) :
    ((resolveHealpix E nside ra de).2.filter A2P.isFallback).length =
      (if (E.ang2pixLonlat nside ra de).isSome then 0 else 1) ∧
    (resolveHealpix E nside ra de).2 =
      (match E.ang2pixLonlat nside ra de with
       | some _ => [A2P.lonlat nside ra de]
       | none => [A2P.lonlat nside ra de,
           A2P.plain nside (E.sub (E.radians ra) E.pi) (E.radians de)]) ∧
    (resolveHealpix E nside ra de).2.length ≤ 2 := by
  cases h : E.ang2pixLonlat nside ra de <;>
    simp [resolveHealpix, h, A2P.isFallback, List.filter]


/-- A `testStream`-style instance with no header configured
(`self.lineHeader` left at its constructor default `''`), splitting
enabled, bunch size 1, counter mode. -/
def cfgNoHeader : Cfg :=
  ⟨"TEST.catalog", "tiles", "csv", "", false, 0, -1, true, 1, 2 ^ 22, 0, 1⟩

/-- A `testStream`-style instance whose configured output extension
`self.outExt` has been set to `"txt"`. -/
def cfgTxtExt : Cfg :=
  ⟨"TEST.catalog", "tiles", "txt", lineHeaderCSV, false, 0, -1, false, 1000000, 2 ^ 22, 0, 1⟩

/-- C8 (corrected, amended): the derived output path is
`<outputDirectory>/<inputStem>_<3-digit-zero-padded-index>.<exten>` where
`exten` is `getIthOutfile`'s own argument — `processStream`'s call sites
always use the Python default `"csv"` — and not the configured `outExt`
attribute; it therefore coincides with the spec's convention exactly when
`outExt = "csv"`.  Derivation is deterministic (the function is pure), and
the index is zero-padded to width at least 3. -/
theorem claim8_filename (cfg : Cfg) (i : Nat) :
    (cfg.outExt = "csv" → streamOutPath cfg i = specOutPath cfg i) ∧
    streamOutPath cfg i = streamOutPath cfg i ∧
    3 ≤ (zfill 3 (toString i)).length := by
  refine ⟨fun h => ?_, rfl, ?_⟩
  · unfold streamOutPath getIthOutfile specOutPath
    rw [h]
  · unfold zfill
    by_cases hlen : (toString i).length < 3
    · rw [if_pos hlen, String.length_append]
      have h1 : (String.mk (List.replicate (3 - (toString i).length) '0')).length
          = 3 - (toString i).length := by
        show (List.replicate (3 - (toString i).length) '0').length = _
        exact List.length_replicate _ _
      rw [h1]
      omega
    · rw [if_neg hlen]
      omega

/-- Counterexample for C8 as stated: with the configured output extension
set to `"txt"`, the path actually derived by `processStream`'s call to
`getIthOutfile` still ends in `.csv` — the configured `outExt` is ignored —
so it differs from the spec's `<...>.<configured extension>` path. -/
theorem claim8_filename_cex :
    streamOutPath cfgTxtExt 0 = "tiles/TEST_000.csv" ∧
    specOutPath cfgTxtExt 0 = "tiles/TEST_000.txt" ∧
    streamOutPath cfgTxtExt 0 ≠ specOutPath cfgTxtExt 0 :=
  ⟨by decide, by decide, by decide⟩

/-- Witness for C8's amended theorem at a configuration whose `outExt` is
the default `"csv"`. -/
theorem claim8_filename_witness :
    (mkTestCfg 1 true false 0).outExt = "csv" ∧
    streamOutPath (mkTestCfg 1 true false 0) 5 = specOutPath (mkTestCfg 1 true false 0) 5 :=
  ⟨rfl, (claim8_filename (mkTestCfg 1 true false 0) 5).1 rfl⟩

/-- C1 (corrected, amended): with a header configured (length > 1) and
bunch size `B > 0`, for `N` records: non-splitting mode produces exactly
one output file containing the header plus exactly `N` transformed lines
(as claimed).  Splitting mode produces `⌊N/B⌋ + 1` output files: file `i`
for `i < ⌊N/B⌋` holds the header plus exactly `B` transformed lines, and
the final file holds the header plus `N mod B` transformed lines — in
particular a header-only file when `B` divides `N`, so the claimed
`⌈N/B⌉` file count fails exactly in that case (see the counterexample). -/
theorem claim1_bunch_boundary {A : Type} (E : Ext A) (cfg : Cfg) (lines : List String)
    (hh : 1 < cfg.lineHeader.length) (hB : 0 < cfg.nBunch)
    (hok : ∀ l ∈ lines, lineOk cfg E l = true) :
    ∃ os st, outLinesFrom cfg E 0 lines = some os ∧ os.length = lines.length ∧
      processStream cfg E [] (-1) lines = some st ∧
      (cfg.splitFiles = false → st.fs = [(0, (cfg.lineHeader ++ "\n") :: os)]) ∧
      (cfg.splitFiles = true →
        st.fs.length = lines.length / cfg.nBunch + 1 ∧
        ∀ i, i ≤ lines.length / cfg.nBunch →
          fsGet st.fs i = some ((cfg.lineHeader ++ "\n") ::
            ((os.drop (i * cfg.nBunch)).take cfg.nBunch))) := by
  obtain ⟨os, hos, hoslen⟩ := outLinesFrom_ok cfg E lines 0 hok
  by_cases hsp : cfg.splitFiles = true
  · obtain ⟨st, hps, hfs⟩ := processStream_split_run cfg E lines os [] hh hsp hB hos rfl
    refine ⟨os, st, hos, hoslen, hps, ?_, ?_⟩
    · intro hfalse
      rw [hsp] at hfalse
      simp at hfalse
    · intro _
      constructor
      · rw [hfs, List.length_map, List.length_range, hoslen]
      · intro i hi
        rw [hfs, fsGet_map_range0, if_pos (by rw [hoslen]; omega)]
  · have hsp2 : cfg.splitFiles = false := by
      revert hsp
      cases cfg.splitFiles <;> simp
    obtain ⟨st, hps, hfs⟩ := processStream_nosplit_run cfg E lines os [] hh hsp2 hos rfl
    refine ⟨os, st, hos, hoslen, hps, fun _ => hfs, ?_⟩
    intro htrue
    rw [hsp2] at htrue
    simp at htrue

/-- Counterexample for C1 as stated: one record with bunch size 1 and
splitting enabled.  The claim predicts `⌈1/1⌉ = 1` output file; the code
produces 2 (the data file plus a rotated header-only file). -/
theorem claim1_bunch_boundary_cex :
    (processStream (mkTestCfg 1 true false 0) extQ [] (-1) ["1.0 2.0\n"]).map
      (fun st => st.fs.length) = some 2 ∧ (2 : Nat) ≠ 1 :=
  ⟨rfl, by decide⟩

/-- Witness for C1's amended theorem: three records, bunch size 2,
splitting enabled — two files: header + 2 lines, then header + 1 line. -/
theorem claim1_bunch_boundary_witness :
    (1 < (mkTestCfg 2 true false 0).lineHeader.length) ∧
    ∃ os st,
      outLinesFrom (mkTestCfg 2 true false 0) extQ 0
          ["1.0 2.0\n", "3.0 4.0\n", "5.0 6.0\n"] = some os ∧
      os.length = (["1.0 2.0\n", "3.0 4.0\n", "5.0 6.0\n"] : List String).length ∧
      processStream (mkTestCfg 2 true false 0) extQ [] (-1)
          ["1.0 2.0\n", "3.0 4.0\n", "5.0 6.0\n"] = some st ∧
      ((mkTestCfg 2 true false 0).splitFiles = false →
        st.fs = [(0, ((mkTestCfg 2 true false 0).lineHeader ++ "\n") :: os)]) ∧
      ((mkTestCfg 2 true false 0).splitFiles = true →
        st.fs.length = (["1.0 2.0\n", "3.0 4.0\n", "5.0 6.0\n"] : List String).length
            / (mkTestCfg 2 true false 0).nBunch + 1 ∧
        ∀ i, i ≤ (["1.0 2.0\n", "3.0 4.0\n", "5.0 6.0\n"] : List String).length
            / (mkTestCfg 2 true false 0).nBunch →
          fsGet st.fs i = some (((mkTestCfg 2 true false 0).lineHeader ++ "\n") ::
            ((os.drop (i * (mkTestCfg 2 true false 0).nBunch)).take
              (mkTestCfg 2 true false 0).nBunch))) :=
  ⟨by decide, claim1_bunch_boundary extQ (mkTestCfg 2 true false 0)
    ["1.0 2.0\n", "3.0 4.0\n", "5.0 6.0\n"] (by decide) (by decide) (by decide)⟩

/-- C7 (corrected, amended): with a header of length > 1 configured, every
output file of a splitting run — the initial file and every rotation —
is created truncating any existing content and starts with the header line
plus newline (the first conjunct: even with pre-existing content `old` at
the path of file 0, every produced file's first chunk is the header).
With no header configured the claim fails: the initial `open(..., "w")` is
skipped entirely (pre-existing content is preserved and appended to), and
every rotation unconditionally writes `lineHeader + "\n"`, producing a
file containing a single newline rather than an empty file (second
conjunct, concrete run). -/
theorem claim7_open_behavior {A : Type} (E : Ext A) (cfg : Cfg) (lines : List String)
    (old : List String) (hh : 1 < cfg.lineHeader.length) (hsp : cfg.splitFiles = true)
    (hB : 0 < cfg.nBunch) (hok : ∀ l ∈ lines, lineOk cfg E l = true) :
    (∃ st, processStream cfg E [(0, old)] (-1) lines = some st ∧
      ∀ i c, fsGet st.fs i = some c → c.head? = some (cfg.lineHeader ++ "\n")) ∧
    (∃ st2, processStream cfgNoHeader extQ [(0, ["OLD\n"])] (-1)
        ["1.0 2.0\n", "3.0 4.0\n"] = some st2 ∧
      st2.fs = [(0, ["OLD\n", "1,1.0,2.0\n"]), (1, ["\n", "2,3.0,4.0\n"]),
        (2, ["\n"])]) := by
  constructor
  · obtain ⟨os, hos, _⟩ := outLinesFrom_ok cfg E lines 0 hok
    obtain ⟨st, hps, hfs⟩ := processStream_split_run cfg E lines os [(0, old)] hh hsp hB hos
      (by simp [fsSet])
    refine ⟨st, hps, ?_⟩
    intro i c hget
    rw [hfs] at hget
    obtain ⟨j, _, hj⟩ := List.mem_map.mp (fsGet_mem hget)
    have hc : c = (cfg.lineHeader ++ "\n") :: ((os.drop (j * cfg.nBunch)).take cfg.nBunch) := by
      have h2 := congrArg Prod.snd hj
      simpa using h2.symm
    rw [hc]
    rfl
  · exact ⟨_, rfl, rfl⟩

/-- Counterexample for C7 as stated: with no header configured, the file
present at the initial output path is not truncated (its old content is
appended to), and each rotated file contains a single newline — not an
empty file. -/
theorem claim7_open_behavior_cex :
    (processStream cfgNoHeader extQ [(0, ["OLD\n"])] (-1)
        ["1.0 2.0\n", "3.0 4.0\n"]).map (fun st => st.fs)
      = some [(0, ["OLD\n", "1,1.0,2.0\n"]), (1, ["\n", "2,3.0,4.0\n"]), (2, ["\n"])] ∧
    (["\n"] : List String) ≠ [] ∧
    (["OLD\n", "1,1.0,2.0\n"] : List String) ≠ ["1,1.0,2.0\n"] :=
  ⟨rfl, by decide, by decide⟩

/-- Witness for C7's amended theorem at a concrete splitting run with
pre-existing content at file 0's path. -/
theorem claim7_open_behavior_witness :
    (1 < (mkTestCfg 1 true false 0).lineHeader.length) ∧
    ((∃ st, processStream (mkTestCfg 1 true false 0) extQ [(0, ["OLD\n"])] (-1)
          ["1.0 2.0\n"] = some st ∧
        ∀ i c, fsGet st.fs i = some c →
          c.head? = some ((mkTestCfg 1 true false 0).lineHeader ++ "\n")) ∧
     (∃ st2, processStream cfgNoHeader extQ [(0, ["OLD\n"])] (-1)
          ["1.0 2.0\n", "3.0 4.0\n"] = some st2 ∧
        st2.fs = [(0, ["OLD\n", "1,1.0,2.0\n"]), (1, ["\n", "2,3.0,4.0\n"]),
          (2, ["\n"])])) :=
  ⟨by decide, claim7_open_behavior extQ (mkTestCfg 1 true false 0) ["1.0 2.0\n"] ["OLD\n"]
    (by decide) rfl (by decide) (by decide)⟩

/-- C4 (corrected, amended): the end-to-end scenario — input
`"10.0 20.0 1 2\n30.0 -5.0 3 4\n"`, counter mode with `idMin = 0`, bunch
size 1, splitting enabled, CSV header — produces THREE output files: the
first two each contain the header followed by the claimed data line
(`"1,10.0,20.0,1,2\n"`, `"2,30.0,-5.0,3,4\n"`), and the third contains
only the header (the rotation after the final full-bunch flush); the
returned maximum identifier is 2 as claimed. -/
theorem claim4_scenario :
    ∃ st, testStream extQ ["10.0 20.0 1 2\n", "30.0 -5.0 3 4\n"] (-1) 1 true false 0
        = some st ∧
      st.fs = [(0, [lineHeaderCSV ++ "\n", "1,10.0,20.0,1,2\n"]),
               (1, [lineHeaderCSV ++ "\n", "2,30.0,-5.0,3,4\n"]),
               (2, [lineHeaderCSV ++ "\n"])] ∧
      st.idMax = 2 :=
  ⟨_, rfl, rfl, rfl⟩

/-- Counterexample for C4 as stated: the scenario produces three output
files, not the claimed two. -/
theorem claim4_scenario_cex :
    (testStream extQ ["10.0 20.0 1 2\n", "30.0 -5.0 3 4\n"] (-1) 1 true false 0).map
      (fun st => st.fs.length) = some 3 ∧ (3 : Nat) ≠ 2 :=
  ⟨rfl, by decide⟩


/-! ### Batch-level lemmas and claims (testConvertMany) -/

theorem counterIds_mem_bounds (idMin : Int) (s n : Nat) (x : Int)
    (hx : x ∈ counterIds idMin s n) : idMin + s < x ∧ x ≤ idMin + s + n := by
  unfold counterIds at hx
  obtain ⟨i, hi, rfl⟩ := List.mem_map.mp hx
  rw [List.mem_range] at hi
  omega

theorem counterIds_pairwise (idMin : Int) (s n : Nat) :
    (counterIds idMin s n).Pairwise (· < ·) := by
  unfold counterIds
  rw [List.pairwise_map]
  exact (List.pairwise_lt_range n).imp (fun {a b} h => by omega)

/-- C2 (corrected, amended): in a counter-mode batch, `testConvertMany`
starts each file's counter at `previousMax + 1`, and within a file the
line with 1-based index `i` receives identifier `idMin + i`; consequently
the first identifier issued in file `k+1` equals the maximum identifier of
file `k` plus TWO (the value `previousMax + 1` itself is never issued) —
not plus one as claimed. -/
theorem claim2_counter_continuity {A : Type} (E : Ext A) :
    ∀ (files : List (List String)) (idMin : Int) (sts : List LoopSt) (k : Nat)
      (fk1 : List String),
      convertMany E false files idMin = some sts →
      files[k + 1]? = some fk1 → fk1 ≠ [] →
      ∃ stk stk1, sts[k]? = some stk ∧ sts[k + 1]? = some stk1 ∧
        stk1.ids.head? = some (stk.idMax + 2) := by
  intro files
  induction files with
  | nil =>
      intro idMin sts k fk1 hrun hk hne
      simp at hk
  | cons f fs ih =>
      intro idMin sts k fk1 hrun hk hne
      simp only [convertMany] at hrun
      cases ht : testStream E f (-1) 1000000 true false idMin with
      | none => rw [ht] at hrun; simp at hrun
      | some st0 =>
          rw [ht] at hrun
          obtain ⟨sts2, hrun2, rfl⟩ := Option.map_eq_some'.mp hrun
          cases k with
          | zero =>
              rw [List.getElem?_cons_succ] at hk
              cases fs with
              | nil => simp at hk
              | cons f1 fs2 =>
                  rw [List.getElem?_cons_zero] at hk
                  obtain rfl : f1 = fk1 := by injection hk
                  simp only [convertMany] at hrun2
                  cases ht1 : testStream E f1 (-1) 1000000 true false (st0.idMax + 1) with
                  | none => rw [ht1] at hrun2; simp at hrun2
                  | some st1 =>
                      rw [ht1] at hrun2
                      obtain ⟨sts3, hrun3, rfl⟩ := Option.map_eq_some'.mp hrun2
                      refine ⟨st0, st1, rfl,
                        by rw [List.getElem?_cons_succ, List.getElem?_cons_zero], ?_⟩
                      obtain ⟨hids, _⟩ := testStream_some_char E f1 1000000 true _ st1 ht1
                      obtain ⟨n, hn⟩ : ∃ n, f1.length = n + 1 := by
                        cases f1 with
                        | nil => exact absurd rfl hne
                        | cons a t => exact ⟨t.length, rfl⟩
                      rw [hids, hn, counterIds_succ, List.head?_cons]
                      congr 1
                      push_cast
                      ring
          | succ k2 =>
              rw [List.getElem?_cons_succ] at hk
              obtain ⟨stk, stk1, h1, h2, h3⟩ := ih (st0.idMax + 1) sts2 k2 fk1 hrun2 hk hne
              exact ⟨stk, stk1, by rw [List.getElem?_cons_succ]; exact h1,
                by rw [List.getElem?_cons_succ]; exact h2, h3⟩

/-- Counterexample for C2 as stated: a batch of two one-record files with
initial `idMin = 0`.  File 1 issues `[1]` with maximum 1; the claim
predicts that file 2's first identifier is `1 + 1 = 2`, but the code
issues 3 (identifier 2 is skipped). -/
theorem claim2_counter_continuity_cex :
    (convertMany extQ false [["1.0 2.0\n"], ["3.0 4.0\n"]] 0).map
      (fun sts => sts.map (fun st => (st.ids, st.idMax)))
      = some [([1], 1), ([3], 3)] ∧ (3 : Int) ≠ 1 + 1 :=
  ⟨rfl, by decide⟩

/-- The batch states of a concrete two-file counter-mode conversion. -/
def stsW2 : List LoopSt :=
  (convertMany extQ false [["1.0 2.0\n"], ["3.0 4.0\n", "5.0 6.0\n"]] 0).getD []

/-- Witness for C2's amended theorem on a concrete two-file batch. -/
theorem claim2_counter_continuity_witness :
    ((["3.0 4.0\n", "5.0 6.0\n"] : List String) ≠ []) ∧
    ∃ stk stk1, stsW2[0]? = some stk ∧ stsW2[0 + 1]? = some stk1 ∧
      stk1.ids.head? = some (stk.idMax + 2) :=
  ⟨by decide, claim2_counter_continuity extQ [["1.0 2.0\n"], ["3.0 4.0\n", "5.0 6.0\n"]] 0
    stsW2 0 ["3.0 4.0\n", "5.0 6.0\n"] rfl rfl (by decide)⟩

theorem convertMany_ids_bounded {A : Type} (E : Ext A) :
    ∀ (files : List (List String)) (idMin : Int) (sts : List LoopSt),
      convertMany E false files idMin = some sts →
      (∀ f ∈ files, f ≠ []) →
      ((sts.map (fun st => st.ids)).flatten).Pairwise (· < ·) ∧
      (∀ x ∈ (sts.map (fun st => st.ids)).flatten, idMin < x) := by
  intro files
  induction files with
  | nil =>
      intro idMin sts hrun _
      simp only [convertMany, Option.some.injEq] at hrun
      subst hrun
      simp
  | cons f fs ih =>
      intro idMin sts hrun hne
      simp only [convertMany] at hrun
      cases ht : testStream E f (-1) 1000000 true false idMin with
      | none => rw [ht] at hrun; simp at hrun
      | some st0 =>
          rw [ht] at hrun
          obtain ⟨sts2, hrun2, rfl⟩ := Option.map_eq_some'.mp hrun
          obtain ⟨hids, hmax⟩ := testStream_some_char E f 1000000 true idMin st0 ht
          have hfne : f ≠ [] := hne f (by simp)
          have hflen : ¬ f.length = 0 := fun h0 => hfne (List.length_eq_zero.mp h0)
          rw [if_neg hflen] at hmax
          obtain ⟨ihp, ihb⟩ := ih (st0.idMax + 1) sts2 hrun2 (fun x hx => hne x (by simp [hx]))
          rw [List.map_cons, List.flatten_cons, List.pairwise_append]
          refine ⟨⟨?_, ?_, ?_⟩, ?_⟩
          · rw [hids]
            exact counterIds_pairwise idMin 0 f.length
          · exact ihp
          · intro a ha b hb
            rw [hids] at ha
            have h2a := (counterIds_mem_bounds idMin 0 f.length a ha).2
            have hbb := ihb b hb
            rw [hmax] at hbb
            omega
          · intro x hx
            rw [List.mem_append] at hx
            rcases hx with hx1 | hx2
            · rw [hids] at hx1
              have h1 := (counterIds_mem_bounds idMin 0 f.length x hx1).1
              omega
            · have h2 := ihb x hx2
              rw [hmax] at h2
              omega

/-- C3 (confirmed): in counter mode, for a batch of non-empty input files
processed strictly in sequence with the maximum identifier propagated
between files (`idMin := previousMax + 1`), the sequence of identifiers
issued across the whole batch is strictly increasing and contains no
duplicates. -/
theorem claim3_batch_unique {A : Type} (E : Ext A) (files : List (List String)) (idMin : Int)
    (sts : List LoopSt) (hrun : convertMany E false files idMin = some sts)
    (hne : ∀ f ∈ files, f ≠ []) :
    ((sts.map (fun st => st.ids)).flatten).Pairwise (· < ·) ∧
    ((sts.map (fun st => st.ids)).flatten).Nodup := by
  obtain ⟨hp, _⟩ := convertMany_ids_bounded E files idMin sts hrun hne
  exact ⟨hp, hp.imp (fun {a b} h => by omega)⟩

/-- The batch states of a concrete two-file counter-mode conversion used to
witness C3. -/
def stsW3 : List LoopSt :=
  (convertMany extQ false [["7.0 8.0\n"], ["9.0 0.5\n"]] 0).getD []

/-- Witness for C3 on a concrete two-file batch. -/
theorem claim3_batch_unique_witness :
    (∀ f ∈ ([["7.0 8.0\n"], ["9.0 0.5\n"]] : List (List String)), f ≠ []) ∧
    ((stsW3.map (fun st => st.ids)).flatten).Pairwise (· < ·) ∧
    ((stsW3.map (fun st => st.ids)).flatten).Nodup :=
  ⟨by decide, claim3_batch_unique extQ [["7.0 8.0\n"], ["9.0 0.5\n"]] 0 stsW3 rfl (by decide)⟩

/-- C10 (confirmed): a counter-mode conversion of an empty input keeps the
constructor-initialised sentinel `idMax = -1` and returns it; in a batch,
the following file therefore starts at `idMin = -1 + 1 = 0`, restarting
the counter below identifiers already issued — the concrete batch
`[1 record, empty, 1 record]` issues `[[1], [], [1]]`, duplicating
identifier 1. -/
theorem claim10_empty_file {A : Type} (E : Ext A) (rest : List (List String)) (idMin : Int) :
    (∃ st0, testStream E [] (-1) 1000000 true false idMin = some st0 ∧ st0.idMax = -1 ∧
      st0.ids = [] ∧
      convertMany E false ([] :: rest) idMin
        = (convertMany E false rest 0).map (fun sts => st0 :: sts)) ∧
    (convertMany extQ false [["1.0 2.0\n"], [], ["1.0 2.0\n"]] 0).map
      (fun sts => sts.map (fun st => st.ids)) = some [[1], [], [1]] := by
  exact ⟨⟨⟨0, 0, 0, [], -1, [], [], [(0, [lineHeaderCSV ++ "\n"])]⟩, rfl, rfl, rfl, rfl⟩, rfl⟩

end BdbsUtils
